import Mathlib

/-!
Verification of the 1kgp-research VCF-processing code: a shallow embedding of
the population registry (`src/vcf/population.py`), the symmetric pair store
(`src/two_way_dict.py`), the statistical summary (`src/vcf/model.py`), the
pairwise-difference comparer (`src/vcf/comparer.py`) and the population
frequency classifier (`src/vcf/predictor.py`, `src/vcf/handler.py`).

Python dictionaries are modelled as association lists with first-match lookup
and in-place update of the first matching key, which coincides with Python
`dict` semantics whenever the key list is duplicate-free (Python dicts keep
insertion order and update values in place, exactly like `dinsert` below).
-/

/-- Lookup of a key in an association list (Python `d[k]` / `k in d`):
first match wins, `none` models a `KeyError`. -/
def dlookup [DecidableEq κ] (k : κ) : List (κ × ν) → Option ν
  | [] => none
  | p :: ps => if p.1 = k then some p.2 else dlookup k ps

/-- Python `d[k] = v`: update the first entry with key `k` in place, or append
a new entry at the end (Python dicts keep insertion order). -/
def dinsert [DecidableEq κ] (k : κ) (v : ν) : List (κ × ν) → List (κ × ν)
  | [] => [(k, v)]
  | p :: ps => if p.1 = k then (k, v) :: ps else p :: dinsert k v ps

/-- Python `del d[k]`: remove the first entry with key `k`. -/
def ddel [DecidableEq κ] (k : κ) : List (κ × ν) → List (κ × ν)
  | [] => []
  | p :: ps => if p.1 = k then ps else p :: ddel k ps

/-- Apply `f` to the value stored under `k` (used to model in-place mutation of
a dict-stored list, e.g. `d[k].append(x)` or `d[k].remove(x)`). -/
def dadjust [DecidableEq κ] (k : κ) (f : ν → ν) : List (κ × ν) → List (κ × ν)
  | [] => []
  | p :: ps => if p.1 = k then (p.1, f p.2) :: ps else p :: dadjust k f ps

/-- The distinct elements of a list, in order of first occurrence (the key
order of a Python `dict`/`Counter` built by repeated insertion); `seen` is
the accumulator of elements already emitted. -/
def firstKeysAux [DecidableEq α] (seen : List α) : List α → List α
  | [] => []
  | a :: l =>
    if a ∈ seen then firstKeysAux seen l
    else a :: firstKeysAux (seen ++ [a]) l

def firstKeys [DecidableEq α] (l : List α) : List α := firstKeysAux [] l

/-- Python `s.split(sep)` for a single-character separator (every separator
used by this code is one character): split at every occurrence, keeping empty
parts. `acc` holds the current part, reversed. -/
def splitCharAux (c : Char) : List Char → List Char → List String
  | [], acc => [⟨acc.reverse⟩]
  | x :: xs, acc =>
    if x = c then ⟨acc.reverse⟩ :: splitCharAux c xs []
    else splitCharAux c xs (x :: acc)

def splitChar (c : Char) (s : String) : List String := splitCharAux c s.data []

/-- Python `c in s` for a single character. -/
def pyContains (s : String) (c : Char) : Bool := s.data.any (fun x => x == c)

/-- Python `s.startswith(t)`. -/
def pyStartsWith (s t : String) : Bool := t.data.isPrefixOf s.data

/-- Python `line.rstrip('\n')`. -/
def pyRstripNewline (s : String) : String :=
  ⟨(s.data.reverse.dropWhile (fun c => c == '\n')).reverse⟩

/-- Python `<` on strings: lexicographic comparison of code points. -/
def charListLt : List Char → List Char → Bool
  | [], [] => false
  | [], _ :: _ => true
  | _ :: _, [] => false
  | a :: as, b :: bs =>
    if a < b then true
    else if a = b then charListLt as bs
    else false

/-- Python `set(a) == set(b)`: the two lists hold the same elements. -/
def sameSet [DecidableEq α] (a b : List α) : Bool :=
  a.all (fun x => decide (x ∈ b)) && b.all (fun x => decide (x ∈ a))

/-- `itertools.combinations(l, 2)`: all unordered pairs of elements of `l`, in
Python's enumeration order. -/
def combos2 : List α → List (α × α)
  | [] => []
  | x :: xs => xs.map (fun y => (x, y)) ++ combos2 xs

/- ## Population registry (`src/vcf/population.py`) -/

/-- The `Population` class: a forward dict `individual_to_group` and a
`defaultdict(list)` inverse `group_to_individuals`. -/
structure Population where
  individual_to_group : List (String × String)
  group_to_individuals : List (String × List String)
deriving Repr, DecidableEq

def Population.empty : Population := ⟨[], []⟩

/-- The list stored for `group` (a missing group reads as `[]`, the
`defaultdict` default). -/
def Population.collOf (p : Population) (group : String) : List String :=
  (dlookup group p.group_to_individuals).getD []

/-- `Population.add_individual`: assign the forward mapping and append to the
group's list (creating the `defaultdict` entry when absent). -/
def Population.add_individual (p : Population) (identifier group : String) : Population :=
  { individual_to_group := dinsert identifier group p.individual_to_group
    group_to_individuals :=
      match dlookup group p.group_to_individuals with
      | some _ => dadjust group (fun l => l ++ [identifier]) p.group_to_individuals
      | none => p.group_to_individuals ++ [(group, [identifier])] }

/-- `Population.remove_individual`: look up the group (`KeyError` when the
individual is absent, modelled as `none`), delete the forward entry and
`list.remove` the identifier from the group's list (`ValueError` when absent,
also `none`; the entry that `defaultdict` would silently create in that error
case is irrelevant because the state is discarded with the exception). -/
def Population.remove_individual (p : Population) (identifier : String) : Option Population :=
  match dlookup identifier p.individual_to_group with
  | none => none
  | some group =>
    if identifier ∈ p.collOf group then
      some { individual_to_group := ddel identifier p.individual_to_group
             group_to_individuals :=
               dadjust group (fun l => l.erase identifier) p.group_to_individuals }
    else none

def Population.has_individual (p : Population) (individual : String) : Bool :=
  (dlookup individual p.individual_to_group).isSome

def Population.individuals (p : Population) : List String :=
  p.individual_to_group.map Prod.fst

def Population.groups (p : Population) : List String :=
  p.group_to_individuals.map Prod.fst

/-- The bidirectional invariant of the registry (spec §3): keys of both dicts
are duplicate-free (as they are in a Python dict), every individual of the
forward mapping occurs exactly once in its group's collection, and every
member of a group's collection maps forward to that group. -/
def Population.Inv (p : Population) : Prop :=
  (p.individual_to_group.map Prod.fst).Nodup ∧
  (p.group_to_individuals.map Prod.fst).Nodup ∧
  (∀ e ∈ p.individual_to_group, (p.collOf e.2).count e.1 = 1) ∧
  (∀ g ∈ p.group_to_individuals.map Prod.fst,
    ∀ i ∈ p.collOf g, dlookup i p.individual_to_group = some g)

instance (p : Population) : Decidable p.Inv := by
  unfold Population.Inv; infer_instance

/- ## Errors

Python exceptions raised by the embedded code, modelled as `Except` errors. -/

inductive Err where
  | missingIndividual (name : String)
  | indexError
  | keyError
  | typeError
  | valueError
deriving Repr, DecidableEq

/-- Python `l[i]` on a list: `IndexError` when out of range. -/
def listAt (l : List α) (i : Nat) : Except Err α :=
  if h : i < l.length then Except.ok (l.get ⟨i, h⟩) else Except.error Err.indexError

/- ## Symmetric pair store (`src/two_way_dict.py`) -/

/-- `normalize_key`: order the pair by the string order, smaller component
first (Python `<` on strings is the same lexicographic order as Lean's). -/
def normalize_key (key : String × String) : String × String :=
  if charListLt key.1.data key.2.data then (key.1, key.2) else (key.2, key.1)

/-- `TwoWayDict`: a dict whose keys are normalized unordered pairs. -/
structure TwoWayDict (ν : Type) where
  dict : List ((String × String) × ν)

def TwoWayDict.emptyDict : TwoWayDict ν := ⟨[]⟩

/-- `TwoWayDict.__setitem__`. -/
def TwoWayDict.setItem (d : TwoWayDict ν) (key : String × String) (value : ν) :
    TwoWayDict ν :=
  ⟨dinsert (normalize_key key) value d.dict⟩

/-- `TwoWayDict.__getitem__` (`none` models the `KeyError`). -/
def TwoWayDict.getItem (d : TwoWayDict ν) (key : String × String) : Option ν :=
  dlookup (normalize_key key) d.dict

/- ## Statistical summary (`src/vcf/model.py`) -/

/-- The dictionary returned by `Model.compute_stats`; `np.std` is the square
root of `variance` (the mean squared deviation), kept here in exact
rational arithmetic. -/
structure Stats where
  statMin : ℚ
  statMax : ℚ
  mean : ℚ
  variance : ℚ
deriving Repr, DecidableEq

/-- `Model.compute_stats`: Python `min([])` raises `ValueError`
(the empty-statistics error), modelled as `none`. -/
def compute_stats (values : List ℚ) : Option Stats :=
  match values with
  | [] => none
  | x :: xs =>
    let l := x :: xs
    let m := l.sum / (l.length : ℚ)
    some { statMin := xs.foldl min x
           statMax := xs.foldl max x
           mean := m
           variance := (l.map (fun v => (v - m) ^ 2)).sum / (l.length : ℚ) }

/-- `np.std`: the (nonnegative) square root of the mean squared deviation. -/
noncomputable def Stats.stdev (s : Stats) : ℝ := Real.sqrt (s.variance : ℝ)

/- ## Pairwise difference accumulator (`src/vcf/comparer.py`) -/

/-- Mutable state of a `Comparer` instance (`DefaultComparer`,
i.e. `init_factory = int`, so pair values start at `0`). -/
structure Comparer where
  input_individuals : Option (List String)
  individual_indeces : List (String × Nat)
  pairs : List (String × String)
  idx_pairs : List (Nat × Nat)
  values : List Int
deriving Repr, DecidableEq

def Comparer.initial : Comparer := ⟨none, [], [], [], []⟩

def Comparer.set_individuals (c : Comparer) (inds : List String) : Comparer :=
  { c with input_individuals := some inds, individual_indeces := [] }

/-- The `enumerate(individuals)` loop that records, for each configured
individual found in the header, its column index (later duplicates of a
header name overwrite the index, as in a Python dict); `idx` is the current
enumeration index. -/
def buildIndecesFrom (targets : List String) (idx : Nat) :
    List String → List (String × Nat) → List (String × Nat)
  | [], d => d
  | i :: rest, d =>
    buildIndecesFrom targets (idx + 1) rest
      (if i ∈ targets then dinsert i idx d else d)

def buildIndeces (targets : List String) (individuals : List String)
    (start : List (String × Nat)) : List (String × Nat) :=
  buildIndecesFrom targets 0 individuals start

/-- `Comparer.process_individuals`: build the index map, fail on the first
configured individual absent from the header, then set up the pair lists and
initial values. -/
def Comparer.process_individuals (c : Comparer) (individuals : List String) :
    Except Err Comparer :=
  match c.input_individuals with
  | none => Except.error Err.typeError
  | some targets =>
    let indeces := buildIndeces targets individuals c.individual_indeces
    let finish : Comparer :=
      { c with individual_indeces := indeces
               pairs := combos2 (indeces.map Prod.fst)
               idx_pairs := combos2 (indeces.map Prod.snd)
               values := List.replicate (combos2 (indeces.map Prod.fst)).length 0 }
    if targets.length > indeces.length then
      match targets.find? (fun i => decide (i ∉ individuals)) with
      | some i => Except.error (Err.missingIndividual i)
      | none => Except.ok finish
    else Except.ok finish

/-- Python `str.strip()`: drop whitespace from both ends. -/
def pyStrip (s : String) : String :=
  ⟨((s.data.dropWhile Char.isWhitespace).reverse.dropWhile Char.isWhitespace).reverse⟩

/-- `DefaultComparer.process_variant`: genotype call = first colon-delimited
token; split on `/` first, then `|`; strip surrounding whitespace from each
allele (Python `str.strip`). -/
def comparerProcessVariant (variant_field : String) : List String :=
  let genotype := (splitChar ':' variant_field).headD ""
  let alleles :=
    if pyContains genotype '/' then splitChar '/' genotype
    else if pyContains genotype '|' then splitChar '|' genotype
    else [genotype]
  alleles.map pyStrip

/-- `DefaultComparer.update_comparison` increment: drop the reference alleles
`"0"` and compare the two allele collections as sets. -/
def updateValue (variant1 variant2 : List String) : Int :=
  if sameSet (variant1.filter (fun i => decide (i ≠ "0")))
             (variant2.filter (fun i => decide (i ≠ "0")))
  then 0 else 1

/-- `Comparer.process_data` for `DefaultComparer`: transform the fields of
the selected columns and add the per-pair increment. (Python first rewrites
`data_fields[idx]` in place at every selected index and then reads the two
transformed entries per pair; since every pair index is a selected index and
the transformation is deterministic, applying `comparerProcessVariant` at
each read yields the same values. An out-of-range selected index raises
`IndexError`.) -/
def Comparer.process_data (c : Comparer) (data_fields : List String) :
    Except Err Comparer :=
  if c.individual_indeces.all (fun p => p.2 < data_fields.length) &&
     c.idx_pairs.all (fun q => q.1 < data_fields.length && q.2 < data_fields.length) then
    Except.ok { c with values :=
      (c.idx_pairs.zip c.values).map (fun pv =>
        pv.2 + updateValue (comparerProcessVariant (data_fields.getD pv.1.1 ""))
                           (comparerProcessVariant (data_fields.getD pv.1.2 ""))) }
  else Except.error Err.indexError

/-- `Comparer.terminate`: build the final dictionary, storing each pair's
value under both orderings of the key. -/
def terminateValues (pairs : List (String × String)) (values : List Int) :
    List ((String × String) × Int) :=
  (pairs.zip values).foldl
    (fun d pv => dinsert (pv.1.2, pv.1.1) pv.2 (dinsert (pv.1.1, pv.1.2) pv.2 d)) []

/-- `Comparer.compare` after `terminate`: plain dict lookup (`none` models
the `KeyError` for a pair never accumulated). -/
def compareLookup (d : List ((String × String) × Int)) (id1 id2 : String) :
    Option Int :=
  dlookup (id1, id2) d

/- ## Population frequency classifier (`src/vcf/predictor.py`, `src/vcf/handler.py`) -/

def FIXED_FIELDS_LENGTH : Nat := 8
def ID_COLUMN : Nat := 2
def INFO_COLUMN : Nat := 7

/-- The Python set `SUPERPOPULATIONS`, as a list (its unspecified set
iteration order only affects intermediate states that the code discards). -/
def SUPERPOPULATIONS : List String := ["AFR", "AMR", "EAS", "EUR", "SAS"]

/-- Mutable state of a `PredictorJoao` instance (the thresholds `t1`, `t2`
are passed to the functions below). `terminate_early` is the flag assigned at
the end of `Predictor.process_data`. -/
structure Predictor where
  has_genotype_field : Option Bool
  population : Population
  polymorphisms : Option (List String)
  polymorphism_count : Nat
  individuals : Option (List String)
  individual_indeces : List (String × Nat)
  population_labels : List String
  from_info : Bool
  structures : List (String × List String)
  labels : List (String × String)
  terminate_early : Bool
deriving Repr, DecidableEq

def Predictor.initial : Predictor :=
  { has_genotype_field := none
    population := Population.empty
    polymorphisms := none
    polymorphism_count := 0
    individuals := none
    individual_indeces := []
    population_labels := []
    from_info := false
    structures := []
    labels := []
    terminate_early := false }

/-- `Predictor.set_populations`: also decides the info-field shortcut by
comparing the configured group set with `SUPERPOPULATIONS`. -/
def Predictor.set_populations (s : Predictor) (population : Population)
    (individuals : List String) : Predictor :=
  { s with population := population
           individuals := some individuals
           from_info := sameSet population.groups SUPERPOPULATIONS }

/-- `Predictor.set_polymorphisms`: Python stores `set(polymorphisms)`;
the deduplicated list keeps the set's cardinality. -/
def Predictor.set_polymorphisms (s : Predictor) (polymorphisms : List String) :
    Predictor :=
  { s with polymorphisms := some (firstKeys polymorphisms) }

/-- `Predictor.process_variant`: allele-dosage ratio = (number of alleles
different from `"0"`) / ploidy; `|` is tested before `/`. -/
def Predictor.process_variant (variant_field : String) : ℚ :=
  let genotype := (splitChar ':' variant_field).headD ""
  let alleles :=
    if pyContains genotype '|' then splitChar '|' genotype
    else if pyContains genotype '/' then splitChar '/' genotype
    else [genotype]
  ((alleles.countP (fun i => decide (i ≠ "0"))) : ℚ) / (alleles.length : ℚ)

/-- Python `float` on the decimal literals appearing in VCF INFO frequency
fields (an optional minus sign, digits, an optional fractional part);
other spellings accepted by `float` do not occur in these claims. -/
def parseDigits (cs : List Char) : Option Nat :=
  if cs ≠ [] ∧ cs.all Char.isDigit then
    some (cs.foldl (fun n c => 10 * n + (c.toNat - 48)) 0)
  else none

def parseDecimal (s : String) : Option ℚ :=
  let neg : Bool := s.data.head? == some '-'
  let sign : ℚ := if neg then -1 else 1
  let body : String := if neg then ⟨s.data.tail⟩ else s
  match splitChar '.' body with
  | [intPart] => (parseDigits intPart.data).map (fun n => sign * (n : ℚ))
  | [intPart, fracPart] =>
    match parseDigits intPart.data, parseDigits fracPart.data with
    | some a, some b =>
      some (sign * ((a : ℚ) + (b : ℚ) / ((10 : ℚ) ^ fracPart.length)))
    | _, _ => none
  | _ => none

/-- `dict(i.split('=') for i in info.split(';') if '=' in i)`: a segment
whose split does not have exactly two parts makes `dict` raise. -/
def parseInfo (info_field : String) : Except Err (List (String × String)) :=
  ((splitChar ';' info_field).filter (fun i => pyContains i '=')).foldlM
    (fun d seg =>
      match splitChar '=' seg with
      | [k, v] => Except.ok (dinsert k v d)
      | _ => Except.error Err.valueError) []

/-- `sum(float(i) for i in v.split(','))`. -/
def sumFloats (v : String) : Except Err ℚ :=
  (splitChar ',' v).foldlM
    (fun acc i =>
      match parseDecimal i with
      | some q => Except.ok (acc + q)
      | none => Except.error Err.valueError) 0

/-- The `for pop in SUPERPOPULATIONS` loop of `get_frequencies`: collect the
per-population frequencies, stopping at the first population whose
`_AF` sub-field is missing (Python `break`). -/
def infoLoop (pops : List String) (info : List (String × String)) :
    Except Err (List (String × ℚ)) :=
  match pops with
  | [] => Except.ok []
  | pop :: rest =>
    match dlookup (pop ++ "_AF") info with
    | some v => do
      let q ← sumFloats v
      let tail ← infoLoop rest info
      Except.ok ((pop, q) :: tail)
    | none => Except.ok []

/-- The computed branch (b) of `get_frequencies`: mean dosage ratio per
group over the individuals whose header label is not the `"---"` sentinel,
in first-occurrence order of the groups (Python dict order). -/
def computedFreqs (population_labels : List String) (genotypes : List ℚ) :
    List (String × ℚ) :=
  let pairs := (population_labels.zip genotypes).filter (fun p => decide (p.1 ≠ "---"))
  (firstKeys (pairs.map Prod.fst)).map (fun pop =>
    let vals := (pairs.filter (fun p => decide (p.1 = pop))).map Prod.snd
    (pop, vals.sum / (vals.length : ℚ)))

/-- `Predictor.get_frequencies`: info-field shortcut when `from_info` holds
and all five `_AF` sub-fields are present, otherwise the computed branch;
the returned Bool is the new value of `self.from_info`. -/
def Predictor.get_frequencies (s : Predictor) (fixed_fields : List String)
    (genotypes : List ℚ) : Except Err (List (String × ℚ) × Bool) :=
  if s.from_info then do
    let info_field ← listAt fixed_fields INFO_COLUMN
    let info ← parseInfo info_field
    let result ← infoLoop SUPERPOPULATIONS info
    if result.length = SUPERPOPULATIONS.length then
      Except.ok (result, true)
    else
      Except.ok (computedFreqs s.population_labels genotypes, false)
  else
    Except.ok (computedFreqs s.population_labels genotypes, false)

/-- `PredictorJoao.process_individual_genotype`'s ranking: Python
`sorted(d, key=lambda x: d[x])` on the distance dict — a stable sort by
absolute distance (frequency tables built by this code have distinct group
keys, so the dict lookup is the pair's own distance). -/
def joaoSorted (genotype : ℚ) (freqs : List (String × ℚ)) : List (String × ℚ) :=
  List.insertionSort (fun p q => |genotype - p.2| ≤ |genotype - q.2|) freqs

/-- `PredictorJoao.process_individual_genotype`: one vote for the nearest
group when the margin to the runner-up is at least `t1`; `ordered[1]` raises
`IndexError` on a table with fewer than two groups. -/
def joaoVote (t1 : ℚ) (freqs : List (String × ℚ)) (genotype : ℚ) :
    Except Err (List String) :=
  match joaoSorted genotype freqs with
  | p0 :: p1 :: _ =>
    if |genotype - p1.2| - |genotype - p0.2| ≥ t1 then Except.ok [p0.1]
    else Except.ok []
  | _ => Except.error Err.indexError

/-- `collections.Counter(l).most_common()`: counts keyed in first-encounter
order, stably sorted by descending count. -/
def mostCommon (l : List String) : List (String × Nat) :=
  List.insertionSort (fun p q : String × Nat => q.2 ≤ p.2)
    ((firstKeys l).map (fun g => (g, l.count g)))

/-- One iteration of `PredictorJoao.terminate` (textually identical in
`PredictorMariana.terminate`): reads the top two vote counts unconditionally,
so fewer than two distinct vote targets raise `IndexError`. -/
def terminateOne (t2 : ℚ) (l : List String) : Except Err String :=
  match mostCommon l with
  | p0 :: p1 :: _ =>
    let diff : ℚ := (p0.2 : ℚ) - (p1.2 : ℚ)
    let diff := if 0 < t2 ∧ t2 < 1 then diff / (p0.2 : ℚ) else diff
    Except.ok (if diff ≥ t2 then p0.1 else "---")
  | _ => Except.error Err.indexError

/-- `PredictorJoao.terminate`: label every classified individual. -/
def Predictor.terminate (t2 : ℚ) (s : Predictor) : Except Err Predictor := do
  let labels ← s.structures.foldlM
    (fun d p => do
      let lab ← terminateOne t2 p.2
      pure (dinsert p.1 lab d)) s.labels
  pure { s with labels := labels }

/-- `Predictor.process_individuals`: record header labels and column indices,
create the vote structures, and fail on the first configured individual
absent from the header. -/
def Predictor.process_individuals (s : Predictor) (individuals : List String) :
    Except Err Predictor :=
  let selfInds := s.individuals.getD individuals
  let population_labels := individuals.map (fun i =>
    match dlookup i s.population.individual_to_group with
    | some g => g
    | none => "---")
  let structures := (firstKeys selfInds).map (fun i => (i, ([] : List String)))
  let indeces := buildIndeces selfInds individuals s.individual_indeces
  let finish : Predictor :=
    { s with individuals := some selfInds
             population_labels := population_labels
             structures := structures
             individual_indeces := indeces }
  if selfInds.length > indeces.length then
    match selfInds.find? (fun i => decide (i ∉ individuals)) with
    | some i => Except.error (Err.missingIndividual i)
    | none => Except.ok finish
  else Except.ok finish

/-- The body of `Predictor.process_data` below the polymorphism filter.
The per-row cache keyed on the dosage ratio is semantically transparent
(the vote list depends only on the frequency table and the ratio), so the
loop recomputes the votes per individual. -/
def Predictor.process_data_core (t1 : ℚ) (s : Predictor)
    (fixed_fields : List String) (data_fields : List String) :
    Except Err Predictor := do
  let genotypes := data_fields.map Predictor.process_variant
  let fr ← s.get_frequencies fixed_fields genotypes
  let s := { s with from_info := fr.2 }
  let filtered ← s.individual_indeces.mapM (fun p => listAt genotypes p.2)
  let selfInds ← match s.individuals with
    | some l => pure l
    | none => Except.error Err.typeError
  let structures ← (selfInds.zip filtered).foldlM
    (fun st p => do
      let value_list ← joaoVote t1 fr.1 p.2
      value_list.foldlM
        (fun st2 v =>
          if (dlookup p.1 st2).isSome then
            pure (dadjust p.1 (fun l => l ++ [v]) st2)
          else Except.error Err.keyError) st) s.structures
  let s := { s with structures := structures }
  match s.polymorphisms with
  | some polys =>
    if polys ≠ [] ∧ s.polymorphism_count = polys.length then
      pure { s with terminate_early := true }
    else pure s
  | none => pure s

/-- `Predictor.process_data`: skip rows filtered out by the polymorphism
set, count the retained ones, and set `terminate_early` once every requested
polymorphism has been seen. -/
def Predictor.process_data (t1 : ℚ) (s : Predictor) (fixed_fields : List String)
    (data_fields : List String) : Except Err Predictor :=
  match s.polymorphisms with
  | some polys => do
    let idval ← listAt fixed_fields ID_COLUMN
    if idval ∈ polys then
      Predictor.process_data_core t1
        { s with polymorphism_count := s.polymorphism_count + 1 }
        fixed_fields data_fields
    else pure s
  | none => Predictor.process_data_core t1 s fixed_fields data_fields

/-- One iteration of the `Handler.run` loop (`src/vcf/handler.py`),
specialized to the predictor: metadata lines are ignored, a `#` (non-`##`)
line is the column header (`FORMAT` decides where individual columns start,
and Python's undetermined `has_genotype_field = None` is falsy), every other
line is a data row. -/
def Predictor.process_line (t1 : ℚ) (s : Predictor) (line : String) :
    Except Err Predictor :=
  let line := pyRstripNewline line
  if pyStartsWith line "##" then pure s
  else
    let fields := splitChar '\t' line
    if pyStartsWith line "#" then
      let hasGT := "FORMAT" ∈ fields
      let individuals :=
        if hasGT then fields.drop (FIXED_FIELDS_LENGTH + 1)
        else fields.drop FIXED_FIELDS_LENGTH
      Predictor.process_individuals { s with has_genotype_field := some hasGT }
        individuals
    else
      let fixed_fields := fields.take FIXED_FIELDS_LENGTH
      if s.has_genotype_field.getD false then do
        let _format ← listAt fields FIXED_FIELDS_LENGTH
        Predictor.process_data t1 s fixed_fields (fields.drop (FIXED_FIELDS_LENGTH + 1))
      else
        Predictor.process_data t1 s fixed_fields (fields.drop FIXED_FIELDS_LENGTH)

/-- `Handler.run` for the predictor: `prepare` is a no-op, every line of the
stream is processed in order (the loop never consults `terminate_early`),
then `terminate` runs once. -/
def Predictor.run (t1 t2 : ℚ) (s : Predictor) (stream : List String) :
    Except Err Predictor := do
  let s ← stream.foldlM (fun s line => Predictor.process_line t1 s line) s
  Predictor.terminate t2 s

/-- A sequence of data-row callbacks (fixed fields and per-individual
fields), as the dispatcher issues them within one stream. -/
def Predictor.process_rows (t1 : ℚ) (s : Predictor)
    (rows : List (List String × List String)) : Except Err Predictor :=
  rows.foldlM (fun s row => Predictor.process_data t1 s row.1 row.2) s

/-- A `TwoWayDict` built from a sequence of `__setitem__` operations. -/
def twFromOps (ops : List ((String × String) × ν)) : TwoWayDict ν :=
  ops.foldl (fun d kv => d.setItem kv.1 kv.2) TwoWayDict.emptyDict

/-- The allele set of one genotype field as computed by the code
(`DefaultComparer.process_variant` + the filter in `update_comparison`):
alleles are stripped and the reference marker `"0"` is discarded. -/
def codeAlleleSet (variant_field : String) : Finset String :=
  ((comparerProcessVariant variant_field).filter (fun i => decide (i ≠ "0"))).toFinset

/-- The allele set in the words of the spec (claim C3): the first
colon-delimited token of the field, split on `/` or `|` (a token with
neither separator is one haploid allele), with alleles equal to `"0"`
discarded — no whitespace stripping. -/
def specAlleleSet (variant_field : String) : Finset String :=
  let genotype := (splitChar ':' variant_field).headD ""
  let alleles :=
    if pyContains genotype '/' then splitChar '/' genotype
    else if pyContains genotype '|' then splitChar '|' genotype
    else [genotype]
  (alleles.filter (fun i => decide (i ≠ "0"))).toFinset

deriving instance DecidableEq for Except

/- ## Concrete configuration used by the executable scenarios: two known
individuals in distinct groups, one individual to classify, a single
requested polymorphism `rs1`, and a stream whose two data rows both carry
identifier `rs1`. -/

def exPopulation : Population :=
  (Population.empty.add_individual "K1" "G1").add_individual "K2" "G2"

def exPredictor : Predictor :=
  (Predictor.initial.set_populations exPopulation ["T1"]).set_polymorphisms ["rs1"]

def exHeader : String :=
  "#CHROM\tPOS\tID\tREF\tALT\tQUAL\tFILTER\tINFO\tFORMAT\tK1\tK2\tT1"

def exRow1 : String := "1\t100\trs1\tA\tG\t.\t.\t.\tGT\t0|0\t1|1\t0|1"

def exRow2 : String := "1\t101\trs1\tA\tG\t.\t.\t.\tGT\t0|0\t1|1\t1|1"

/- ## Association-list lemmas -/

section DictLemmas

variable {κ ν : Type} [DecidableEq κ]

theorem dlookup_eq_none_iff {k : κ} {l : List (κ × ν)} :
    dlookup k l = none ↔ k ∉ l.map Prod.fst := by
  induction l with
  | nil => simp [dlookup]
  | cons p ps ih =>
    by_cases h : p.1 = k
    · simp only [dlookup, if_pos h, List.map_cons, List.mem_cons]
      constructor
      · intro hc; exact absurd hc (by simp)
      · intro hc; exact absurd (Or.inl h.symm) hc
    · simp only [dlookup, if_neg h, List.map_cons, List.mem_cons, ih]
      constructor
      · intro hc hor
        rcases hor with h1 | h1
        · exact h h1.symm
        · exact hc h1
      · intro hc h1; exact hc (Or.inr h1)

theorem dlookup_mem {k : κ} {v : ν} {l : List (κ × ν)}
    (h : dlookup k l = some v) : (k, v) ∈ l := by
  induction l with
  | nil => simp [dlookup] at h
  | cons p ps ih =>
    obtain ⟨a, b⟩ := p
    by_cases hk : a = k
    · subst hk
      simp [dlookup] at h
      obtain rfl := h
      exact List.mem_cons_self _ _
    · simp only [dlookup, if_neg hk] at h
      exact List.mem_cons_of_mem _ (ih h)

theorem dlookup_mem_keys {k : κ} {v : ν} {l : List (κ × ν)}
    (h : dlookup k l = some v) : k ∈ l.map Prod.fst :=
  List.mem_map.mpr ⟨(k, v), dlookup_mem h, rfl⟩

theorem mem_dlookup {k : κ} {v : ν} {l : List (κ × ν)}
    (hmem : (k, v) ∈ l) (hnd : (l.map Prod.fst).Nodup) : dlookup k l = some v := by
  induction l with
  | nil => simp at hmem
  | cons p ps ih =>
    simp only [List.map_cons, List.nodup_cons] at hnd
    rcases List.mem_cons.mp hmem with h | h
    · subst h; simp [dlookup]
    · have hk : p.1 ≠ k := by
        rintro rfl
        exact hnd.1 (List.mem_map.mpr ⟨_, h, rfl⟩)
      simp only [dlookup, if_neg hk]
      exact ih h hnd.2

theorem dlookup_append_of_none {k : κ} {l₁ l₂ : List (κ × ν)}
    (h : dlookup k l₁ = none) : dlookup k (l₁ ++ l₂) = dlookup k l₂ := by
  induction l₁ with
  | nil => simp
  | cons p ps ih =>
    by_cases hk : p.1 = k
    · simp [dlookup, hk] at h
    · simp only [dlookup, if_neg hk] at h ⊢
      exact ih h

theorem dlookup_append_of_some {k : κ} {v : ν} {l₁ l₂ : List (κ × ν)}
    (h : dlookup k l₁ = some v) : dlookup k (l₁ ++ l₂) = some v := by
  induction l₁ with
  | nil => simp [dlookup] at h
  | cons p ps ih =>
    by_cases hk : p.1 = k <;> simp only [dlookup, if_pos, if_neg, hk] at h ⊢
    · exact h
    · exact ih h

theorem dinsert_of_not_mem {k : κ} {v : ν} {l : List (κ × ν)}
    (h : k ∉ l.map Prod.fst) : dinsert k v l = l ++ [(k, v)] := by
  induction l with
  | nil => rfl
  | cons p ps ih =>
    simp only [List.map_cons, List.mem_cons, not_or] at h
    obtain ⟨h1, h2⟩ := h
    have hpk : p.1 ≠ k := fun hh => h1 hh.symm
    simp only [dinsert, if_neg hpk, List.cons_append, ih h2]

theorem ddel_sublist (k : κ) (l : List (κ × ν)) : (ddel k l).Sublist l := by
  induction l with
  | nil => simp [ddel]
  | cons p ps ih =>
    by_cases hk : p.1 = k
    · simp only [ddel, if_pos hk]
      exact List.sublist_cons_self p ps
    · simp only [ddel, if_neg hk]
      exact ih.cons₂ p

theorem mem_ddel {q : κ × ν} {k : κ} {l : List (κ × ν)}
    (hnd : (l.map Prod.fst).Nodup) (h : q ∈ ddel k l) : q ∈ l ∧ q.1 ≠ k := by
  induction l with
  | nil => simp [ddel] at h
  | cons p ps ih =>
    simp only [List.map_cons, List.nodup_cons] at hnd
    by_cases hk : p.1 = k
    · subst hk
      simp only [ddel, if_pos rfl] at h
      refine ⟨List.mem_cons_of_mem _ h, fun hq => ?_⟩
      exact hnd.1 (List.mem_map.mpr ⟨q, h, hq⟩)
    · simp only [ddel, if_neg hk] at h
      rcases List.mem_cons.mp h with h | h
      · exact ⟨List.mem_cons.mpr (Or.inl h), h ▸ hk⟩
      · obtain ⟨h1, h2⟩ := ih hnd.2 h
        exact ⟨List.mem_cons_of_mem _ h1, h2⟩

theorem dlookup_ddel_self {k : κ} {l : List (κ × ν)}
    (hnd : (l.map Prod.fst).Nodup) : dlookup k (ddel k l) = none := by
  induction l with
  | nil => simp [ddel, dlookup]
  | cons p ps ih =>
    simp only [List.map_cons, List.nodup_cons] at hnd
    by_cases hk : p.1 = k
    · subst hk
      simp only [ddel, if_pos rfl]
      rw [dlookup_eq_none_iff]
      exact hnd.1
    · simp only [ddel, if_neg hk, dlookup, if_neg hk]
      exact ih hnd.2

theorem dlookup_ddel_ne {j k : κ} {l : List (κ × ν)}
    (hjk : j ≠ k) : dlookup j (ddel k l) = dlookup j l := by
  induction l with
  | nil => rfl
  | cons p ps ih =>
    by_cases hk : p.1 = k
    · have hj : p.1 ≠ j := by rw [hk]; exact Ne.symm hjk
      simp only [ddel, if_pos hk, dlookup, if_neg hj]
    · by_cases hj : p.1 = j
      · simp only [ddel, if_neg hk, dlookup, if_pos hj]
      · simp only [ddel, if_neg hk, dlookup, if_neg hj, ih]

theorem dadjust_keys (k : κ) (f : ν → ν) (l : List (κ × ν)) :
    (dadjust k f l).map Prod.fst = l.map Prod.fst := by
  induction l with
  | nil => rfl
  | cons p ps ih =>
    by_cases hk : p.1 = k <;> simp [dadjust, hk, ih]

theorem dlookup_dadjust_self (k : κ) (f : ν → ν) (l : List (κ × ν)) :
    dlookup k (dadjust k f l) = (dlookup k l).map f := by
  induction l with
  | nil => rfl
  | cons p ps ih =>
    by_cases hk : p.1 = k <;> simp [dadjust, dlookup, hk, ih]

theorem dlookup_dadjust_ne {j k : κ} (f : ν → ν) {l : List (κ × ν)}
    (hjk : j ≠ k) : dlookup j (dadjust k f l) = dlookup j l := by
  induction l with
  | nil => rfl
  | cons p ps ih =>
    by_cases hk : p.1 = k
    · have hj : p.1 ≠ j := by rw [hk]; exact Ne.symm hjk
      simp only [dadjust, if_pos hk, dlookup, if_neg hj]
    · by_cases hj : p.1 = j
      · simp only [dadjust, if_neg hk, dlookup, if_pos hj]
      · simp only [dadjust, if_neg hk, dlookup, if_neg hj, ih]

end DictLemmas

/- ## Population registry lemmas -/

theorem Population.collOf_add_self (p : Population) (i g : String) :
    (p.add_individual i g).collOf g = p.collOf g ++ [i] := by
  unfold Population.add_individual Population.collOf
  cases hg : dlookup g p.group_to_individuals with
  | none =>
    simp only [hg]
    rw [dlookup_append_of_none hg]
    simp [dlookup]
  | some lst =>
    simp only [hg]
    rw [dlookup_dadjust_self]
    simp [hg]

theorem Population.collOf_add_ne (p : Population) (i g : String) {x : String}
    (hx : x ≠ g) : (p.add_individual i g).collOf x = p.collOf x := by
  unfold Population.add_individual Population.collOf
  cases hg : dlookup g p.group_to_individuals with
  | none =>
    simp only [hg]
    cases hx2 : dlookup x p.group_to_individuals with
    | none =>
      have hgx : g ≠ x := fun h => hx h.symm
      rw [dlookup_append_of_none hx2]
      simp [dlookup, hgx, hx2]
    | some lst2 => rw [dlookup_append_of_some hx2]
  | some lst =>
    simp only [hg]
    rw [dlookup_dadjust_ne _ hx]

theorem Population.add_groups (p : Population) (i g : String) :
    (p.add_individual i g).group_to_individuals.map Prod.fst
      = if g ∈ p.group_to_individuals.map Prod.fst
        then p.group_to_individuals.map Prod.fst
        else p.group_to_individuals.map Prod.fst ++ [g] := by
  unfold Population.add_individual
  cases hg : dlookup g p.group_to_individuals with
  | none =>
    simp only [hg, List.map_append, List.map_cons, List.map_nil,
      if_neg (dlookup_eq_none_iff.mp hg)]
  | some lst =>
    simp only [hg, dadjust_keys, if_pos (dlookup_mem_keys hg)]

/-- Adding a fresh individual preserves the registry invariant. -/
theorem Population.add_fresh_inv (p : Population) (i g : String)
    (hInv : p.Inv) (hfresh : p.has_individual i = false) :
    (p.add_individual i g).Inv := by
  obtain ⟨h1, h2, h3, h4⟩ := hInv
  have hi : dlookup i p.individual_to_group = none := by
    cases hopt : dlookup i p.individual_to_group with
    | none => rfl
    | some v => rw [Population.has_individual, hopt] at hfresh; simp at hfresh
  have hikeys : i ∉ p.individual_to_group.map Prod.fst := dlookup_eq_none_iff.mp hi
  have hfwd : (p.add_individual i g).individual_to_group
      = p.individual_to_group ++ [(i, g)] := by
    show dinsert i g p.individual_to_group = _
    exact dinsert_of_not_mem hikeys
  refine ⟨?_, ?_, ?_, ?_⟩
  · rw [hfwd, List.map_append]
    refine List.nodup_append.mpr ⟨h1, List.nodup_singleton _, ?_⟩
    intro a ha hb
    simp only [List.map_cons, List.map_nil, List.mem_singleton] at hb
    subst hb
    exact hikeys ha
  · rw [Population.add_groups]
    by_cases hmem : g ∈ p.group_to_individuals.map Prod.fst
    · rwa [if_pos hmem]
    · rw [if_neg hmem]
      refine List.nodup_append.mpr ⟨h2, List.nodup_singleton _, ?_⟩
      intro a ha hb
      simp only [List.mem_singleton] at hb
      subst hb
      exact hmem ha
  · intro e he
    rw [hfwd] at he
    rcases List.mem_append.mp he with he | he
    · have hcount := h3 e he
      have hei : e.1 ≠ i := fun hh => hikeys (hh ▸ List.mem_map.mpr ⟨e, he, rfl⟩)
      by_cases heg : e.2 = g
      · rw [heg, Population.collOf_add_self, List.count_append]
        rw [heg] at hcount
        rw [hcount]
        simp [List.count_singleton', Ne.symm hei]
      · rw [Population.collOf_add_ne p i g heg]
        exact hcount
    · simp only [List.mem_singleton] at he
      subst he
      rw [Population.collOf_add_self, List.count_append]
      have hzero : (p.collOf g).count i = 0 := by
        rw [List.count_eq_zero]
        intro hmem
        cases hgg : dlookup g p.group_to_individuals with
        | none => rw [Population.collOf, hgg] at hmem; simp at hmem
        | some lst =>
          have hfound := h4 g (dlookup_mem_keys hgg) i hmem
          rw [hi] at hfound
          exact Option.noConfusion hfound
      rw [hzero]
      simp [List.count_singleton']
  · intro x hx j hj
    rw [hfwd]
    by_cases hxg : x = g
    · subst hxg
      rw [Population.collOf_add_self] at hj
      rcases List.mem_append.mp hj with hj | hj
      · have hgk : x ∈ p.group_to_individuals.map Prod.fst := by
          cases hgg : dlookup x p.group_to_individuals with
          | none => rw [Population.collOf, hgg] at hj; simp at hj
          | some lst => exact dlookup_mem_keys hgg
        exact dlookup_append_of_some (h4 x hgk j hj)
      · simp only [List.mem_singleton] at hj
        subst hj
        rw [dlookup_append_of_none hi]
        simp [dlookup]
    · rw [Population.collOf_add_ne p i g hxg] at hj
      have hxk : x ∈ p.group_to_individuals.map Prod.fst := by
        rw [Population.add_groups] at hx
        by_cases hmem : g ∈ p.group_to_individuals.map Prod.fst
        · rwa [if_pos hmem] at hx
        · rw [if_neg hmem] at hx
          rcases List.mem_append.mp hx with h | h
          · exact h
          · simp only [List.mem_singleton] at h
            exact absurd h hxg
      exact dlookup_append_of_some (h4 x hxk j hj)

/-- Removing a present individual from an invariant registry succeeds,
preserves the invariant, and removes the individual from both mappings. -/
theorem Population.remove_spec (p : Population) (x : String)
    (hInv : p.Inv) (hx : p.has_individual x = true) :
    ∃ p2, p.remove_individual x = some p2 ∧ p2.Inv ∧
      p2.has_individual x = false ∧ ∀ g, x ∉ p2.collOf g := by
  obtain ⟨h1, h2, h3, h4⟩ := hInv
  obtain ⟨g, hg⟩ : ∃ g, dlookup x p.individual_to_group = some g := by
    cases hopt : dlookup x p.individual_to_group with
    | none => rw [Population.has_individual, hopt] at hx; simp at hx
    | some v => exact ⟨v, rfl⟩
  have hcount : (p.collOf g).count x = 1 := h3 (x, g) (dlookup_mem hg)
  have hxmem : x ∈ p.collOf g := List.count_pos_iff.mp (by rw [hcount]; omega)
  obtain ⟨lst, hlst⟩ : ∃ lst, dlookup g p.group_to_individuals = some lst := by
    cases hgg : dlookup g p.group_to_individuals with
    | none => rw [Population.collOf, hgg] at hxmem; simp at hxmem
    | some lst => exact ⟨lst, rfl⟩
  refine ⟨⟨ddel x p.individual_to_group,
    dadjust g (fun l => l.erase x) p.group_to_individuals⟩, ?_, ?_, ?_, ?_⟩
  · unfold Population.remove_individual
    simp only [hg, if_pos hxmem]
  · have hcoll_self :
        (dlookup g (dadjust g (fun l => l.erase x) p.group_to_individuals)).getD []
          = (p.collOf g).erase x := by
      rw [dlookup_dadjust_self]
      simp [Population.collOf, hlst]
    have hcoll_ne : ∀ y, y ≠ g →
        (dlookup y (dadjust g (fun l => l.erase x) p.group_to_individuals)).getD []
          = p.collOf y := by
      intro y hy
      rw [dlookup_dadjust_ne _ hy]
      rfl
    refine ⟨?_, ?_, ?_, ?_⟩
    · exact ((ddel_sublist x _).map Prod.fst).nodup h1
    · show ((dadjust g _ p.group_to_individuals).map Prod.fst).Nodup
      rw [dadjust_keys]
      exact h2
    · intro e he
      obtain ⟨hemem, hex⟩ := mem_ddel h1 he
      have hc := h3 e hemem
      by_cases heg : e.2 = g
      · show ((dlookup e.2 (dadjust g _ p.group_to_individuals)).getD []).count e.1 = 1
        rw [heg, hcoll_self, List.count_erase_of_ne hex]
        rw [heg] at hc
        exact hc
      · show ((dlookup e.2 (dadjust g _ p.group_to_individuals)).getD []).count e.1 = 1
        rw [hcoll_ne e.2 heg]
        exact hc
    · intro y hy j hj
      by_cases hyg : y = g
      · subst hyg
        show dlookup j (ddel x p.individual_to_group) = some y
        replace hj : j ∈ (p.collOf y).erase x := by
          rw [← hcoll_self]
          exact hj
        have hjl : j ∈ p.collOf y := List.mem_of_mem_erase hj
        have hjf := h4 y (dlookup_mem_keys hlst) j hjl
        have hjx : j ≠ x := by
          rintro rfl
          have hpos := List.count_pos_iff.mpr hj
          rw [List.count_erase_self, hcount] at hpos
          simp at hpos
        rw [dlookup_ddel_ne hjx]
        exact hjf
      · replace hj : j ∈ p.collOf y := by
          rw [← hcoll_ne y hyg]
          exact hj
        cases hgg2 : dlookup y p.group_to_individuals with
        | none => rw [Population.collOf, hgg2] at hj; simp at hj
        | some l2 =>
          have hjf := h4 y (dlookup_mem_keys hgg2) j hj
          have hjx : j ≠ x := by
            rintro rfl
            rw [hg] at hjf
            exact hyg (Option.some_injective _ hjf.symm)
          show dlookup j (ddel x p.individual_to_group) = some y
          rw [dlookup_ddel_ne hjx]
          exact hjf
  · show (dlookup x (ddel x p.individual_to_group)).isSome = false
    rw [dlookup_ddel_self h1]
    rfl
  · intro y
    by_cases hyg : y = g
    · subst hyg
      show x ∉ (dlookup y (dadjust y (fun l => l.erase x) p.group_to_individuals)).getD []
      rw [dlookup_dadjust_self, hlst]
      intro hmem
      have hmem2 : x ∈ (p.collOf y).erase x := by
        simpa [Population.collOf, hlst] using hmem
      have hpos := List.count_pos_iff.mpr hmem2
      rw [List.count_erase_self, hcount] at hpos
      simp at hpos
    · show x ∉ (dlookup y (dadjust g (fun l => l.erase x) p.group_to_individuals)).getD []
      rw [dlookup_dadjust_ne _ hyg]
      intro hmem
      cases hgg2 : dlookup y p.group_to_individuals with
      | none =>
        rw [hgg2] at hmem
        simp at hmem
      | some l2 =>
        have hjf := h4 y (dlookup_mem_keys hgg2) x (by rw [Population.collOf, hgg2]; rwa [hgg2] at hmem)
        rw [hg] at hjf
        exact hyg (Option.some_injective _ hjf.symm)

/- ## Claim theorems -/

/-- C8 (counterexample): `add_individual` does not preserve the bidirectional
invariant on every reachable state: re-adding an already present individual
under another group leaves the old group's collection holding an individual
whose forward mapping points elsewhere. -/
theorem c8_counterexample :
    (Population.empty.add_individual "x" "A").Inv ∧
      ¬ ((Population.empty.add_individual "x" "A").add_individual "x" "B").Inv := by
  decide

/-- C8 (amended): `add_individual` preserves the bidirectional invariant when
the identifier is not already present (the precondition its docstring
states), and from any invariant state containing `x`, `remove_individual x`
succeeds, preserves the invariant, makes `has_individual x` false and
removes `x` from every group's collection. -/
theorem c8_registry_operations :
    (∀ (p : Population) (i g : String), p.Inv → p.has_individual i = false →
      (p.add_individual i g).Inv) ∧
    (∀ (p : Population) (x : String), p.Inv → p.has_individual x = true →
      ∃ p2, p.remove_individual x = some p2 ∧ p2.Inv ∧
        p2.has_individual x = false ∧ ∀ g, x ∉ p2.collOf g) :=
  ⟨Population.add_fresh_inv, Population.remove_spec⟩

/-- C8 witness: the amended theorem applied at a concrete registry. -/
theorem c8_registry_operations_witness :
    ((Population.empty.add_individual "x" "A").add_individual "y" "B").Inv ∧
    (∃ p2, (Population.empty.add_individual "x" "A").remove_individual "x" = some p2 ∧
      p2.Inv ∧ p2.has_individual "x" = false ∧ ∀ g, "x" ∉ p2.collOf g) :=
  ⟨c8_registry_operations.1 _ "y" "B" (by decide) (by decide),
   c8_registry_operations.2 _ "x" (by decide) (by decide)⟩

/-- C1: the dispatcher does not honour the early-termination request.
After the first data row of the concrete stream, `terminate_early` is
already set (every requested polymorphism has been seen), yet running the
full stream still reads and processes the second data row — the retained-row
counter reaches 2 — because `Handler.run` never consults the flag. The
finalize hook does still run exactly once at end of stream (the labels are
produced). -/
theorem c1_dispatcher_ignores_early_termination :
    ((Predictor.process_line 0 exPredictor exHeader).bind
        (fun s => Predictor.process_line 0 s exRow1)).map
        (fun s => (s.polymorphism_count, s.terminate_early)) = Except.ok (1, true) ∧
    (Predictor.run 0 0 exPredictor [exHeader, exRow1, exRow2]).map
        (fun s => (s.polymorphism_count, s.terminate_early, s.labels))
      = Except.ok (2, true, [("T1", "G1")]) := by
  with_unfolding_all decide

/-- C2: the classifier does raise on degenerate evidence, contrary to the
spec: `PredictorJoao.process_individual_genotype` raises `IndexError` on an
empty (or singleton) frequency table, and `terminate` raises `IndexError`
for an individual whose vote accumulator is empty instead of labelling it
`"---"`. -/
theorem c2_degenerate_evidence_raises :
    joaoVote 0 [] (1/2) = Except.error Err.indexError ∧
    joaoVote (3/10) [("AFR", 1/2)] (1/2) = Except.error Err.indexError ∧
    terminateOne 0 [] = Except.error Err.indexError ∧
    Predictor.terminate 0 { Predictor.initial with structures := [("I1", [])] }
      = Except.error Err.indexError := by
  with_unfolding_all decide

/- ## Statistical summary lemmas (C10) -/

theorem foldl_min_mem (xs : List ℚ) : ∀ x : ℚ, xs.foldl min x ∈ x :: xs := by
  induction xs with
  | nil => intro x; simp
  | cons a l ih =>
    intro x
    rw [List.foldl_cons]
    rcases List.mem_cons.mp (ih (min x a)) with h | h
    · rcases min_choice x a with hc | hc
      · rw [h, hc]; exact List.mem_cons_self _ _
      · rw [h, hc]; exact List.mem_cons_of_mem _ (List.mem_cons_self _ _)
    · exact List.mem_cons_of_mem _ (List.mem_cons_of_mem _ h)

theorem foldl_min_le (xs : List ℚ) : ∀ x : ℚ, ∀ y ∈ x :: xs, xs.foldl min x ≤ y := by
  induction xs with
  | nil =>
    intro x y hy
    simp only [List.mem_singleton] at hy
    subst hy
    exact le_refl _
  | cons a l ih =>
    intro x y hy
    rw [List.foldl_cons]
    rcases List.mem_cons.mp hy with h | hy
    · rw [h]
      exact le_trans (ih (min x a) _ (List.mem_cons_self _ _)) (min_le_left x a)
    · rcases List.mem_cons.mp hy with h | hy
      · rw [h]
        exact le_trans (ih (min x a) _ (List.mem_cons_self _ _)) (min_le_right x a)
      · exact ih (min x a) y (List.mem_cons_of_mem _ hy)

theorem foldl_max_mem (xs : List ℚ) : ∀ x : ℚ, xs.foldl max x ∈ x :: xs := by
  induction xs with
  | nil => intro x; simp
  | cons a l ih =>
    intro x
    rw [List.foldl_cons]
    rcases List.mem_cons.mp (ih (max x a)) with h | h
    · rcases max_choice x a with hc | hc
      · rw [h, hc]; exact List.mem_cons_self _ _
      · rw [h, hc]; exact List.mem_cons_of_mem _ (List.mem_cons_self _ _)
    · exact List.mem_cons_of_mem _ (List.mem_cons_of_mem _ h)

theorem le_foldl_max (xs : List ℚ) : ∀ x : ℚ, ∀ y ∈ x :: xs, y ≤ xs.foldl max x := by
  induction xs with
  | nil =>
    intro x y hy
    simp only [List.mem_singleton] at hy
    subst hy
    exact le_refl _
  | cons a l ih =>
    intro x y hy
    rw [List.foldl_cons]
    rcases List.mem_cons.mp hy with h | hy
    · rw [h]
      exact le_trans (le_max_left x a) (ih (max x a) _ (List.mem_cons_self _ _))
    · rcases List.mem_cons.mp hy with h | hy
      · rw [h]
        exact le_trans (le_max_right x a) (ih (max x a) _ (List.mem_cons_self _ _))
      · exact ih (max x a) y (List.mem_cons_of_mem _ hy)

/-- C10: on a non-empty collection the summary satisfies
`min ≤ mean ≤ max`, with `min`/`max` equal to the smallest and largest
observations, the variance is nonnegative so the standard deviation is a
well-defined nonnegative real whose square is the variance; on the empty
collection the computation fails. -/
theorem c10_compute_stats (values : List ℚ) (h : values ≠ []) :
    compute_stats [] = none ∧
    ∃ s, compute_stats values = some s ∧
      s.statMin ∈ values ∧ s.statMax ∈ values ∧
      (∀ x ∈ values, s.statMin ≤ x) ∧ (∀ x ∈ values, x ≤ s.statMax) ∧
      s.statMin ≤ s.mean ∧ s.mean ≤ s.statMax ∧
      0 ≤ s.variance ∧ 0 ≤ s.stdev ∧ s.stdev ^ 2 = (s.variance : ℝ) := by
  refine ⟨rfl, ?_⟩
  match values, h with
  | x :: xs, _ =>
    refine ⟨_, rfl, ?_, ?_, ?_, ?_, ?_, ?_, ?_, ?_, ?_⟩
    · exact foldl_min_mem xs x
    · exact foldl_max_mem xs x
    · exact foldl_min_le xs x
    · exact le_foldl_max xs x
    · show xs.foldl min x ≤ (x :: xs).sum / ((x :: xs).length : ℚ)
      have hlen : (0 : ℚ) < ((x :: xs).length : ℚ) := by
        exact_mod_cast Nat.succ_pos xs.length
      rw [le_div_iff₀ hlen]
      have hle := List.card_nsmul_le_sum (x :: xs) (xs.foldl min x) (foldl_min_le xs x)
      rw [nsmul_eq_mul] at hle
      linarith
    · show (x :: xs).sum / ((x :: xs).length : ℚ) ≤ xs.foldl max x
      have hlen : (0 : ℚ) < ((x :: xs).length : ℚ) := by
        exact_mod_cast Nat.succ_pos xs.length
      rw [div_le_iff₀ hlen]
      have hle := List.sum_le_card_nsmul (x :: xs) (xs.foldl max x) (le_foldl_max xs x)
      rw [nsmul_eq_mul] at hle
      linarith
    · show (0 : ℚ) ≤ _ / ((x :: xs).length : ℚ)
      apply div_nonneg
      · apply List.sum_nonneg
        intro a ha
        obtain ⟨v, _, rfl⟩ := List.mem_map.mp ha
        exact sq_nonneg _
      · exact_mod_cast Nat.zero_le _
    · exact Real.sqrt_nonneg _
    · show Real.sqrt _ ^ 2 = _
      apply Real.sq_sqrt
      rw [Rat.cast_nonneg]
      apply div_nonneg
      · apply List.sum_nonneg
        intro a ha
        obtain ⟨v, _, rfl⟩ := List.mem_map.mp ha
        exact sq_nonneg _
      · exact_mod_cast Nat.zero_le _

/-- C10 witness: the summary of `[2, 5]`. -/
theorem c10_compute_stats_witness :
    compute_stats [] = none ∧
    ∃ s, compute_stats [2, 5] = some s ∧
      s.statMin ∈ [(2 : ℚ), 5] ∧ s.statMax ∈ [(2 : ℚ), 5] ∧
      (∀ x ∈ [(2 : ℚ), 5], s.statMin ≤ x) ∧ (∀ x ∈ [(2 : ℚ), 5], x ≤ s.statMax) ∧
      s.statMin ≤ s.mean ∧ s.mean ≤ s.statMax ∧
      0 ≤ s.variance ∧ 0 ≤ s.stdev ∧ s.stdev ^ 2 = (s.variance : ℝ) :=
  c10_compute_stats [2, 5] (by decide)

/- ## Classifier finalization lemmas (C7) -/

theorem mostCommon_length (l : List String) :
    (mostCommon l).length = (firstKeys l).length := by
  unfold mostCommon
  rw [(List.perm_insertionSort _ _).length_eq, List.length_map]

theorem firstKeysAux_replicate (n : Nat) (g : String) (seen : List String)
    (h : g ∈ seen) : firstKeysAux seen (List.replicate n g) = [] := by
  induction n with
  | zero => rfl
  | succ n ih => simp [List.replicate_succ, firstKeysAux, h, ih]

theorem firstKeys_replicate (n : Nat) (g : String) :
    firstKeys (List.replicate (n + 1) g) = [g] := by
  unfold firstKeys
  rw [List.replicate_succ]
  simp only [firstKeysAux, List.not_mem_nil, if_false, List.nil_append]
  rw [firstKeysAux_replicate n g [g] (List.mem_singleton.mpr rfl)]

/-- C7: finalization reads the top two vote counts unconditionally — it
produces a label exactly when the individual's votes name at least two
distinct groups; an individual with unanimous votes (all for one group) or
with no votes at all hits an `IndexError` instead of being labelled. -/
theorem c7_terminate_reads_top_two (t2 : ℚ) (l : List String) :
    ((∃ lab, terminateOne t2 l = Except.ok lab) ↔ 2 ≤ (firstKeys l).length) ∧
    (∀ g n, l = List.replicate (n + 1) g →
      terminateOne t2 l = Except.error Err.indexError) ∧
    terminateOne t2 [] = Except.error Err.indexError := by
  have hlen := mostCommon_length l
  refine ⟨?_, ?_, rfl⟩
  · cases hm : mostCommon l with
    | nil =>
      rw [hm] at hlen
      constructor
      · rintro ⟨lab, hlab⟩
        simp only [terminateOne, hm] at hlab
        exact Except.noConfusion hlab
      · intro h2
        rw [← hlen] at h2
        simp at h2
    | cons p0 tail =>
      cases tail with
      | nil =>
        rw [hm] at hlen
        constructor
        · rintro ⟨lab, hlab⟩
          simp only [terminateOne, hm] at hlab
          exact Except.noConfusion hlab
        · intro h2
          rw [← hlen] at h2
          simp at h2
      | cons p1 rest =>
        rw [hm] at hlen
        constructor
        · intro _
          rw [← hlen]
          simp only [List.length_cons]
          omega
        · intro _
          refine ⟨if (if 0 < t2 ∧ t2 < 1 then ((p0.2 : ℚ) - (p1.2 : ℚ)) / (p0.2 : ℚ)
              else (p0.2 : ℚ) - (p1.2 : ℚ)) ≥ t2 then p0.1 else "---", ?_⟩
          simp only [terminateOne, hm]
  · intro g n hrep
    subst hrep
    have h1 := firstKeys_replicate n g
    have h2 := mostCommon_length (List.replicate (n + 1) g)
    rw [h1] at h2
    cases hm : mostCommon (List.replicate (n + 1) g) with
    | nil => simp only [terminateOne, hm]
    | cons p0 tail =>
      cases tail with
      | nil => simp only [terminateOne, hm]
      | cons p1 rest =>
        rw [hm] at h2
        simp only [List.length_cons, List.length_nil] at h2
        omega

/-- C7 witness: two unanimous votes hit the `IndexError`. -/
theorem c7_terminate_reads_top_two_witness :
    terminateOne 0 ["AFR", "AFR"] = Except.error Err.indexError :=
  (c7_terminate_reads_top_two 0 ["AFR", "AFR"]).2.1 "AFR" 1 rfl

/- ## Nearest-population margin strategy (C4) -/

/-- C4: on a frequency table with at least two groups (so that a runner-up
exists), the strategy never raises, casts at most one vote, and casts
exactly one vote — for a group at minimal absolute distance from the dosage
ratio — precisely when the margin between the runner-up's distance and the
best distance reaches `t1`; otherwise it casts none. -/
theorem c4_joao_margin (freqs : List (String × ℚ)) (r t1 : ℚ)
    (h2 : 2 ≤ freqs.length) :
    ∃ res, joaoVote t1 freqs r = Except.ok res ∧ res.length ≤ 1 ∧
      ∃ p0 p1 rest, joaoSorted r freqs = p0 :: p1 :: rest ∧
        p0 ∈ freqs ∧ (∀ q ∈ freqs, |r - p0.2| ≤ |r - q.2|) ∧
        (t1 ≤ |r - p1.2| - |r - p0.2| → res = [p0.1]) ∧
        (¬ t1 ≤ |r - p1.2| - |r - p0.2| → res = []) := by
  haveI : IsTotal (String × ℚ) (fun p q => |r - p.2| ≤ |r - q.2|) :=
    ⟨fun a b => le_total _ _⟩
  haveI : IsTrans (String × ℚ) (fun p q => |r - p.2| ≤ |r - q.2|) :=
    ⟨fun a b c hab hbc => le_trans hab hbc⟩
  have hperm :=
    List.perm_insertionSort (fun p q : String × ℚ => |r - p.2| ≤ |r - q.2|) freqs
  have hlen : (joaoSorted r freqs).length = freqs.length := hperm.length_eq
  obtain ⟨p0, p1, rest, hshape⟩ :
      ∃ p0 p1 rest, joaoSorted r freqs = p0 :: p1 :: rest := by
    cases hs : joaoSorted r freqs with
    | nil => rw [hs] at hlen; simp at hlen; omega
    | cons a tail =>
      cases tail with
      | nil => rw [hs] at hlen; simp at hlen; omega
      | cons b rest2 => exact ⟨a, b, rest2, rfl⟩
  have hsorted :=
    List.sorted_insertionSort (fun p q : String × ℚ => |r - p.2| ≤ |r - q.2|) freqs
  have hmin : ∀ q ∈ freqs, |r - p0.2| ≤ |r - q.2| := by
    intro q hq
    have hq2 : q ∈ joaoSorted r freqs := hperm.mem_iff.mpr hq
    rw [hshape] at hq2
    rcases List.mem_cons.mp hq2 with h | h
    · rw [h]
    · have hsorted2 : List.Sorted (fun p q : String × ℚ => |r - p.2| ≤ |r - q.2|)
          (p0 :: p1 :: rest) := hshape ▸ hsorted
      exact List.rel_of_sorted_cons hsorted2 q h
  have hp0mem : p0 ∈ joaoSorted r freqs := by
    rw [hshape]; exact List.mem_cons_self _ _
  have hp0 : p0 ∈ freqs := hperm.mem_iff.mp hp0mem
  by_cases hc : t1 ≤ |r - p1.2| - |r - p0.2|
  · refine ⟨[p0.1], ?_, by simp, p0, p1, rest, hshape, hp0, hmin,
      fun _ => rfl, fun hnc => absurd hc hnc⟩
    simp only [joaoVote, hshape, ge_iff_le, if_pos hc]
  · refine ⟨[], ?_, by simp, p0, p1, rest, hshape, hp0, hmin,
      fun hcc => absurd hcc hc, fun _ => rfl⟩
    simp only [joaoVote, hshape, ge_iff_le, if_neg hc]

/-- C4 witness: the spec's scenario (groups at frequencies 1/10 and 9/10,
dosage ratio 1/20, margin threshold 3/10) casts exactly one vote. -/
theorem c4_joao_margin_witness :
    ∃ res, joaoVote (3/10) [("A", 1/10), ("B", 9/10)] (1/20) = Except.ok res ∧
      res.length ≤ 1 ∧
      ∃ p0 p1 rest,
        joaoSorted (1/20) [("A", 1/10), ("B", 9/10)] = p0 :: p1 :: rest ∧
        p0 ∈ [(("A" : String), (1/10 : ℚ)), ("B", 9/10)] ∧
        (∀ q ∈ [(("A" : String), (1/10 : ℚ)), ("B", 9/10)],
          |1/20 - p0.2| ≤ |1/20 - q.2|) ∧
        ((3/10 : ℚ) ≤ |1/20 - p1.2| - |1/20 - p0.2| → res = [p0.1]) ∧
        (¬ (3/10 : ℚ) ≤ |1/20 - p1.2| - |1/20 - p0.2| → res = []) :=
  c4_joao_margin [("A", 1/10), ("B", 9/10)] (1/20) (3/10) (by decide)

/- ## Pair-key symmetry lemmas (C9) -/

theorem dlookup_dinsert [DecidableEq κ] (k k' : κ) (v : ν) (d : List (κ × ν)) :
    dlookup k' (dinsert k v d) = if k = k' then some v else dlookup k' d := by
  induction d with
  | nil => simp [dinsert, dlookup]
  | cons p ps ih =>
    by_cases hk : p.1 = k
    · subst hk
      by_cases hj : p.1 = k' <;> simp [dinsert, dlookup, hj]
    · by_cases hj : p.1 = k'
      · have hkj : k ≠ k' := fun h => hk (hj.trans h.symm)
        have hjk : ¬ (k' = k) := fun h => hkj h.symm
        simp [dinsert, dlookup, hk, hj, hkj, hjk]
      · simp [dinsert, dlookup, hk, hj, ih]

theorem sym_double_insert (x y : String) (v : Int)
    (d : List ((String × String) × Int))
    (hS : ∀ a b, dlookup (a, b) d = dlookup (b, a) d) :
    ∀ a b, dlookup (a, b) (dinsert (y, x) v (dinsert (x, y) v d))
      = dlookup (b, a) (dinsert (y, x) v (dinsert (x, y) v d)) := by
  intro a b
  have formula : ∀ u w : String,
      dlookup (u, w) (dinsert (y, x) v (dinsert (x, y) v d))
        = if (y, x) = (u, w) ∨ (x, y) = (u, w) then some v
          else dlookup (u, w) d := by
    intro u w
    rw [dlookup_dinsert, dlookup_dinsert]
    by_cases hA : (y, x) = (u, w)
    · simp [hA]
    · by_cases hB : (x, y) = (u, w) <;> simp [hA, hB]
  rw [formula a b, formula b a]
  have hiff : ((y, x) = (a, b) ∨ (x, y) = (a, b)) ↔
      ((y, x) = (b, a) ∨ (x, y) = (b, a)) := by
    constructor
    · rintro (h | h)
      · right; rw [Prod.ext_iff] at h ⊢; exact ⟨h.2, h.1⟩
      · left; rw [Prod.ext_iff] at h ⊢; exact ⟨h.2, h.1⟩
    · rintro (h | h)
      · right; rw [Prod.ext_iff] at h ⊢; exact ⟨h.2, h.1⟩
      · left; rw [Prod.ext_iff] at h ⊢; exact ⟨h.2, h.1⟩
  by_cases hc : (y, x) = (a, b) ∨ (x, y) = (a, b)
  · rw [if_pos hc, if_pos (hiff.mp hc)]
  · rw [if_neg hc, if_neg (fun h => hc (hiff.mpr h))]
    exact hS a b

theorem terminate_fold_sym (l : List ((String × String) × Int)) :
    ∀ d, (∀ a b, dlookup (a, b) d = dlookup (b, a) d) →
      ∀ a b, dlookup (a, b) (l.foldl (fun d pv =>
          dinsert (pv.1.2, pv.1.1) pv.2 (dinsert (pv.1.1, pv.1.2) pv.2 d)) d)
        = dlookup (b, a) (l.foldl (fun d pv =>
          dinsert (pv.1.2, pv.1.1) pv.2 (dinsert (pv.1.1, pv.1.2) pv.2 d)) d) := by
  induction l with
  | nil => intro d hS; exact hS
  | cons pv rest ih =>
    intro d hS
    rw [List.foldl_cons]
    exact ih _ (sym_double_insert pv.1.1 pv.1.2 pv.2 d hS)

theorem charListLt_asymm : ∀ {a b : List Char},
    charListLt a b = true → charListLt b a = false := by
  intro a
  induction a with
  | nil =>
    intro b h
    cases b with
    | nil => simp [charListLt] at h
    | cons y ys => simp [charListLt]
  | cons x xs ih =>
    intro b h
    cases b with
    | nil => simp [charListLt] at h
    | cons y ys =>
      simp only [charListLt] at h ⊢
      by_cases hxy : x < y
      · have h1 : ¬ y < x := lt_asymm hxy
        have h2 : y ≠ x := ne_of_gt hxy
        simp [h1, h2]
      · by_cases hxy2 : x = y
        · subst hxy2
          simp only [lt_irrefl, if_false, if_pos rfl] at h ⊢
          exact ih h
        · simp [hxy, hxy2] at h

theorem charListLt_both_false : ∀ {a b : List Char},
    charListLt a b = false → charListLt b a = false → a = b := by
  intro a
  induction a with
  | nil =>
    intro b h1 h2
    cases b with
    | nil => rfl
    | cons y ys => simp [charListLt] at h1
  | cons x xs ih =>
    intro b h1 h2
    cases b with
    | nil => simp [charListLt] at h2
    | cons y ys =>
      simp only [charListLt] at h1 h2
      by_cases hxy : x < y
      · simp [hxy] at h1
      · by_cases hyx : y < x
        · simp [hyx] at h2
        · have hxeqy : x = y := le_antisymm (not_lt.mp hyx) (not_lt.mp hxy)
          subst hxeqy
          simp only [lt_irrefl, if_false, if_pos rfl] at h1 h2
          rw [ih h1 h2]

theorem stringDataEq {a b : String} (h : a.data = b.data) : a = b := by
  cases a with
  | mk da =>
    cases b with
    | mk db => exact congrArg String.mk h

theorem normalize_key_swap (a b : String) :
    normalize_key (a, b) = normalize_key (b, a) := by
  unfold normalize_key
  by_cases h1 : charListLt a.data b.data = true
  · have h2 : ¬ charListLt b.data a.data = true := by
      rw [charListLt_asymm h1]; simp
    rw [if_pos h1, if_neg h2]
  · have h1f : charListLt a.data b.data = false := by
      revert h1; cases charListLt a.data b.data <;> simp
    by_cases h2 : charListLt b.data a.data = true
    · rw [if_neg h1, if_pos h2]
    · have h2f : charListLt b.data a.data = false := by
        revert h2; cases charListLt b.data a.data <;> simp
      have hd : a = b := stringDataEq (charListLt_both_false h1f h2f)
      rw [hd]

theorem mem_dinsert_keys [DecidableEq κ] {k' k : κ} {v : ν} {d : List (κ × ν)}
    (h : k' ∈ (dinsert k v d).map Prod.fst) : k' = k ∨ k' ∈ d.map Prod.fst := by
  induction d with
  | nil =>
    simp [dinsert] at h
    exact Or.inl h
  | cons p ps ih =>
    by_cases hk : p.1 = k
    · rw [show dinsert k v (p :: ps) = (k, v) :: ps by simp [dinsert, hk]] at h
      simp only [List.map_cons, List.mem_cons] at h
      rcases h with h | h
      · exact Or.inl h
      · exact Or.inr (by simp only [List.map_cons, List.mem_cons]; exact Or.inr h)
    · rw [show dinsert k v (p :: ps) = p :: dinsert k v ps by simp [dinsert, hk]] at h
      simp only [List.map_cons, List.mem_cons] at h
      rcases h with h | h
      · exact Or.inr (by simp only [List.map_cons, List.mem_cons]; exact Or.inl h)
      · rcases ih h with h2 | h2
        · exact Or.inl h2
        · exact Or.inr (by simp only [List.map_cons, List.mem_cons]; exact Or.inr h2)

theorem normalize_key_prop (k : String × String) :
    charListLt (normalize_key k).2.data (normalize_key k).1.data = false := by
  unfold normalize_key
  by_cases h : charListLt k.1.data k.2.data = true
  · rw [if_pos h]
    exact charListLt_asymm h
  · have hf : charListLt k.1.data k.2.data = false := by
      revert h; cases charListLt k.1.data k.2.data <;> simp
    rw [if_neg h]
    exact hf

theorem twFromOps_keys_normalized (ops : List ((String × String) × Int)) :
    ∀ key ∈ (twFromOps ops).dict.map Prod.fst,
      charListLt key.2.data key.1.data = false := by
  suffices h : ∀ (d : TwoWayDict Int),
      (∀ key ∈ d.dict.map Prod.fst, charListLt key.2.data key.1.data = false) →
      ∀ key ∈ ((ops.foldl (fun d kv => d.setItem kv.1 kv.2) d)).dict.map Prod.fst,
        charListLt key.2.data key.1.data = false by
    exact h TwoWayDict.emptyDict (by simp [TwoWayDict.emptyDict])
  induction ops with
  | nil => intro d hd; exact hd
  | cons kv rest ih =>
    intro d hd
    rw [List.foldl_cons]
    apply ih
    intro key hkey
    rcases mem_dinsert_keys hkey with h | h
    · rw [h]
      exact normalize_key_prop kv.1
    · exact hd key h

/-- C9: (a) `compare` on the dictionary built by `Comparer.terminate` is
symmetric in its two arguments (the value is stored under both orderings);
(b) `TwoWayDict` reads and writes under `(a,b)` and `(b,a)` resolve to the
same normalized key; (c) in any `TwoWayDict` built by a sequence of writes,
a pair of distinct identifiers is never stored under both orderings. -/
theorem c9_unordered_pairs :
    (∀ (pairs : List (String × String)) (values : List Int) (a b : String),
      compareLookup (terminateValues pairs values) a b
        = compareLookup (terminateValues pairs values) b a) ∧
    (∀ (d : TwoWayDict Int) (a b : String),
      d.getItem (a, b) = d.getItem (b, a)) ∧
    (∀ (ops : List ((String × String) × Int)) (a b : String), a ≠ b →
      (a, b) ∈ (twFromOps ops).dict.map Prod.fst →
      (b, a) ∉ (twFromOps ops).dict.map Prod.fst) := by
  refine ⟨?_, ?_, ?_⟩
  · intro pairs values a b
    unfold compareLookup terminateValues
    exact terminate_fold_sym (pairs.zip values) [] (fun a b => rfl) a b
  · intro d a b
    unfold TwoWayDict.getItem
    rw [normalize_key_swap]
  · intro ops a b hab hmem hmem2
    have h1 := twFromOps_keys_normalized ops (a, b) hmem
    have h2 := twFromOps_keys_normalized ops (b, a) hmem2
    exact hab (stringDataEq (charListLt_both_false h2 h1))

/-- C9 witness: writing under `("y","x")` stores only the normalized key, so
the reversed ordering is absent. -/
theorem c9_unordered_pairs_witness :
    ("y", "x") ∉ (twFromOps [(("y", "x"), (5 : Int))]).dict.map Prod.fst :=
  c9_unordered_pairs.2.2 [(("y", "x"), 5)] "x" "y" (by decide) (by decide)

/- ## Pairwise difference accumulator lemmas (C3) -/

theorem sameSet_iff_toFinset [DecidableEq α] (a b : List α) :
    sameSet a b = true ↔ a.toFinset = b.toFinset := by
  unfold sameSet
  rw [Bool.and_eq_true, List.all_eq_true, List.all_eq_true]
  constructor
  · rintro ⟨h1, h2⟩
    apply Finset.ext
    intro x
    simp only [List.mem_toFinset]
    constructor
    · intro hx; exact of_decide_eq_true (h1 x hx)
    · intro hx; exact of_decide_eq_true (h2 x hx)
  · intro h
    have hiff : ∀ x, x ∈ a ↔ x ∈ b := by
      intro x
      rw [← List.mem_toFinset, ← List.mem_toFinset, h]
    exact ⟨fun x hx => decide_eq_true ((hiff x).mp hx),
           fun x hx => decide_eq_true ((hiff x).mpr hx)⟩

theorem updateValue_eq (v1 v2 : String) :
    updateValue (comparerProcessVariant v1) (comparerProcessVariant v2)
      = if codeAlleleSet v1 = codeAlleleSet v2 then 0 else 1 := by
  unfold updateValue codeAlleleSet
  by_cases h : sameSet
      ((comparerProcessVariant v1).filter (fun i => decide (i ≠ "0")))
      ((comparerProcessVariant v2).filter (fun i => decide (i ≠ "0"))) = true
  · rw [if_pos h, if_pos ((sameSet_iff_toFinset _ _).mp h)]
  · have h2 : ¬ ((comparerProcessVariant v1).filter
        (fun i => decide (i ≠ "0"))).toFinset
        = ((comparerProcessVariant v2).filter (fun i => decide (i ≠ "0"))).toFinset :=
      fun hh => h ((sameSet_iff_toFinset _ _).mpr hh)
    rw [if_neg h, if_neg h2]

/-- C3 (counterexample): the code strips whitespace around alleles before
comparing, which the claim's allele-set definition omits: on genotype fields
`"0|0"` and `"0| 0"` the claim's allele sets differ (so the claim predicts
an increment of 1), yet the pair's count stays 0. -/
theorem c3_counterexample :
    specAlleleSet "0|0" ≠ specAlleleSet "0| 0" ∧
    (Comparer.process_data
        { input_individuals := some ["IND1", "IND2"]
          individual_indeces := [("IND1", 0), ("IND2", 1)]
          pairs := [("IND1", "IND2")]
          idx_pairs := [(0, 1)]
          values := [0] } ["0|0", "0| 0"]).map Comparer.values
      = Except.ok [0] := by
  constructor
  · intro h
    have h1 : (" 0" : String) ∈ specAlleleSet "0| 0" := by
      simp only [specAlleleSet, List.mem_toFinset]
      decide
    rw [← h] at h1
    simp only [specAlleleSet, List.mem_toFinset] at h1
    revert h1
    decide
  · with_unfolding_all decide

/-- C3 (amended): per data row, each configured pair's running count
increments by exactly 1 when the two individuals' allele sets differ and is
unchanged when they are equal — where the allele set is the genotype call
(first colon-delimited token) split on `/` or `|` (a lone token is one
haploid allele), each allele stripped of surrounding whitespace, alleles
equal to `"0"` discarded, compared as sets; in particular `1|1` and `1/1`
contribute 0. -/
theorem c3_pair_difference_counts (c : Comparer) (data_fields : List String)
    (hidx : ∀ p ∈ c.individual_indeces, p.2 < data_fields.length)
    (hpair : ∀ q ∈ c.idx_pairs,
      q.1 < data_fields.length ∧ q.2 < data_fields.length) :
    ∃ c2, Comparer.process_data c data_fields = Except.ok c2 ∧
      c2.values = (c.idx_pairs.zip c.values).map (fun pv =>
        pv.2 + (if codeAlleleSet (data_fields.getD pv.1.1 "")
                  = codeAlleleSet (data_fields.getD pv.1.2 "") then 0 else 1)) ∧
      codeAlleleSet "1|1" = codeAlleleSet "1/1" := by
  have hguard : (c.individual_indeces.all (fun p => p.2 < data_fields.length) &&
      c.idx_pairs.all (fun q =>
        q.1 < data_fields.length && q.2 < data_fields.length)) = true := by
    rw [Bool.and_eq_true, List.all_eq_true, List.all_eq_true]
    constructor
    · intro p hp; exact decide_eq_true (hidx p hp)
    · intro q hq
      rw [Bool.and_eq_true]
      exact ⟨decide_eq_true (hpair q hq).1, decide_eq_true (hpair q hq).2⟩
  unfold Comparer.process_data
  rw [if_pos hguard]
  refine ⟨_, rfl, ?_, ?_⟩
  · show (c.idx_pairs.zip c.values).map _ = _
    apply List.map_congr_left
    intro pv _
    show pv.2 + updateValue (comparerProcessVariant (data_fields.getD pv.1.1 ""))
        (comparerProcessVariant (data_fields.getD pv.1.2 "")) = _
    rw [updateValue_eq]
  · decide

/-- C3 witness: the amended statement on a concrete one-pair state. -/
theorem c3_pair_difference_counts_witness :
    ∃ c2, Comparer.process_data
        { input_individuals := some ["IND1", "IND2"]
          individual_indeces := [("IND1", 0), ("IND2", 1)]
          pairs := [("IND1", "IND2")]
          idx_pairs := [(0, 1)]
          values := [0] } ["0|1", "0|0"] = Except.ok c2 ∧
      c2.values = ([((0 : Nat), (1 : Nat))].zip [(0 : Int)]).map (fun pv =>
        pv.2 + (if codeAlleleSet (["0|1", "0|0"].getD pv.1.1 "")
                  = codeAlleleSet (["0|1", "0|0"].getD pv.1.2 "") then 0 else 1)) ∧
      codeAlleleSet "1|1" = codeAlleleSet "1/1" :=
  c3_pair_difference_counts _ _ (by decide) (by decide)

/- ## Missing-individual check lemmas (C5) -/

theorem mem_dinsert_keys_iff [DecidableEq κ] {k' k : κ} {v : ν}
    {d : List (κ × ν)} :
    k' ∈ (dinsert k v d).map Prod.fst ↔ k' = k ∨ k' ∈ d.map Prod.fst := by
  induction d with
  | nil => simp [dinsert]
  | cons p ps ih =>
    by_cases hk : p.1 = k
    · rw [show dinsert k v (p :: ps) = (k, v) :: ps from by simp [dinsert, hk]]
      subst hk
      simp only [List.map_cons, List.mem_cons]
      tauto
    · rw [show dinsert k v (p :: ps) = p :: dinsert k v ps from by
        simp [dinsert, hk]]
      simp only [List.map_cons, List.mem_cons, ih]
      tauto

theorem dinsert_keys_nodup [DecidableEq κ] {k : κ} {v : ν} {d : List (κ × ν)}
    (hd : (d.map Prod.fst).Nodup) : ((dinsert k v d).map Prod.fst).Nodup := by
  induction d with
  | nil => simp [dinsert]
  | cons p ps ih =>
    simp only [List.map_cons, List.nodup_cons] at hd
    by_cases hk : p.1 = k
    · rw [show dinsert k v (p :: ps) = (k, v) :: ps from by simp [dinsert, hk]]
      simp only [List.map_cons, List.nodup_cons]
      exact ⟨hk ▸ hd.1, hd.2⟩
    · rw [show dinsert k v (p :: ps) = p :: dinsert k v ps from by
        simp [dinsert, hk]]
      simp only [List.map_cons, List.nodup_cons]
      refine ⟨fun hmem => ?_, ih hd.2⟩
      rcases mem_dinsert_keys_iff.mp hmem with h | h
      · exact hk h
      · exact hd.1 h

theorem buildIndecesFrom_keys_nodup (targets : List String) :
    ∀ (individuals : List String) (idx : Nat) (d : List (String × Nat)),
      (d.map Prod.fst).Nodup →
      ((buildIndecesFrom targets idx individuals d).map Prod.fst).Nodup := by
  intro individuals
  induction individuals with
  | nil => intro idx d hd; exact hd
  | cons i rest ih =>
    intro idx d hd
    simp only [buildIndecesFrom]
    by_cases hmem : i ∈ targets
    · rw [if_pos hmem]
      exact ih _ _ (dinsert_keys_nodup hd)
    · rw [if_neg hmem]
      exact ih _ _ hd

theorem buildIndecesFrom_keys_iff (targets : List String) :
    ∀ (individuals : List String) (idx : Nat) (d : List (String × Nat))
      (k : String),
      (k ∈ (buildIndecesFrom targets idx individuals d).map Prod.fst
        ↔ (k ∈ individuals ∧ k ∈ targets) ∨ k ∈ d.map Prod.fst) := by
  intro individuals
  induction individuals with
  | nil => intro idx d k; simp [buildIndecesFrom]
  | cons i rest ih =>
    intro idx d k
    simp only [buildIndecesFrom]
    by_cases hmem : i ∈ targets
    · rw [if_pos hmem, ih]
      rw [mem_dinsert_keys_iff]
      simp only [List.mem_cons]
      constructor
      · rintro (⟨h1, h2⟩ | (h | h))
        · exact Or.inl ⟨Or.inr h1, h2⟩
        · exact Or.inl ⟨Or.inl h, h ▸ hmem⟩
        · exact Or.inr h
      · rintro (⟨h1 | h1, h2⟩ | h)
        · exact Or.inr (Or.inl h1)
        · exact Or.inl ⟨h1, h2⟩
        · exact Or.inr (Or.inr h)
    · rw [if_neg hmem, ih]
      simp only [List.mem_cons]
      constructor
      · rintro (⟨h1, h2⟩ | h)
        · exact Or.inl ⟨Or.inr h1, h2⟩
        · exact Or.inr h
      · rintro (⟨h1 | h1, h2⟩ | h)
        · exact absurd (h1 ▸ h2) hmem
        · exact Or.inl ⟨h1, h2⟩
        · exact Or.inr h

theorem buildIndeces_length_lt (targets individuals : List String) (t : String)
    (ht : t ∈ targets) (htabs : t ∉ individuals) :
    (buildIndeces targets individuals []).length < targets.length := by
  have hnodup : ((buildIndeces targets individuals []).map Prod.fst).Nodup :=
    buildIndecesFrom_keys_nodup targets individuals 0 [] (by simp)
  have hsub : ∀ k ∈ (buildIndeces targets individuals []).map Prod.fst,
      k ∈ targets ∧ k ≠ t := by
    intro k hk
    rcases (buildIndecesFrom_keys_iff targets individuals 0 [] k).mp hk with
      ⟨hk1, hk2⟩ | h
    · exact ⟨hk2, fun hkt => htabs (hkt ▸ hk1)⟩
    · simp at h
  have hlen1 : (buildIndeces targets individuals []).length
      = ((buildIndeces targets individuals []).map Prod.fst).length :=
    (List.length_map _ _).symm
  have hcard : ((buildIndeces targets individuals []).map Prod.fst).toFinset.card
      = ((buildIndeces targets individuals []).map Prod.fst).length :=
    List.toFinset_card_of_nodup hnodup
  have hsubset : ((buildIndeces targets individuals []).map Prod.fst).toFinset
      ⊆ targets.toFinset.erase t := by
    intro x hx
    rw [List.mem_toFinset] at hx
    rcases hsub x hx with ⟨h1, h2⟩
    rw [Finset.mem_erase]
    exact ⟨h2, List.mem_toFinset.mpr h1⟩
  have h1 := Finset.card_le_card hsubset
  have h2 : (targets.toFinset.erase t).card < targets.toFinset.card :=
    Finset.card_erase_lt_of_mem (List.mem_toFinset.mpr ht)
  have h3 : targets.toFinset.card ≤ targets.length := targets.toFinset_card_le
  omega

/-- C5 (counterexample): a known individual configured in the registry
(`"K9"`, absent from the header) raises nothing — only target individuals are
checked against the header's individual list. -/
theorem c5_counterexample :
    "K9" ∉ ["K1", "K2", "T1"] ∧
    (Predictor.initial.set_populations (exPopulation.add_individual "K9" "G1")
        ["T1"]).has_genotype_field = none ∧
    ((Predictor.initial.set_populations (exPopulation.add_individual "K9" "G1")
        ["T1"]).process_individuals ["K1", "K2", "T1"]).isOk = true := by
  with_unfolding_all decide

/-- C5 (amended): dispatch fails with a `missing-individual` error naming
the first absent configured *target* individual (exact string comparison),
and succeeds when every target is present — known individuals from the
registry are not checked; if the header line's processing fails, the run
aborts with that error before any further line (hence before any data row)
is consumed and without running finalization. -/
theorem c5_target_presence_check :
    ∀ (s : Predictor) (individuals targets : List String),
      s.individuals = some targets → s.individual_indeces = [] →
      (∀ t, targets.find? (fun i => decide (i ∉ individuals)) = some t →
        s.process_individuals individuals
          = Except.error (Err.missingIndividual t)) ∧
      (targets.find? (fun i => decide (i ∉ individuals)) = none →
        ∃ s2, s.process_individuals individuals = Except.ok s2) ∧
      (∀ (q1 q2 : ℚ) (e : Err) (line : String) (rest : List String),
        Predictor.process_line q1 s line = Except.error e →
        Predictor.run q1 q2 s (line :: rest) = Except.error e) := by
  intro s individuals targets hst hsi
  refine ⟨?_, ?_, ?_⟩
  · intro t hfind
    have ht : t ∈ targets := List.mem_of_find?_eq_some hfind
    have htabs : t ∉ individuals := by
      have htp := List.find?_some hfind
      simpa using htp
    have hlt := buildIndeces_length_lt targets individuals t ht htabs
    unfold Predictor.process_individuals
    rw [hst, hsi]
    simp only [Option.getD_some]
    rw [if_pos hlt, hfind]
  · intro hfind
    unfold Predictor.process_individuals
    rw [hst, hsi]
    simp only [Option.getD_some]
    by_cases hg : targets.length > (buildIndeces targets individuals []).length
    · rw [if_pos hg, hfind]
      exact ⟨_, rfl⟩
    · rw [if_neg hg]
      exact ⟨_, rfl⟩
  · intro q1 q2 e line rest herr
    unfold Predictor.run
    rw [List.foldlM_cons, herr]
    rfl

/-- C5 witness: the amended theorem at a concrete configuration with target
`"T9"` absent from the header individual list. -/
theorem c5_target_presence_check_witness :
    (Predictor.initial.set_populations exPopulation
        ["T1", "T9"]).process_individuals ["K1", "K2", "T1"]
      = Except.error (Err.missingIndividual "T9") :=
  (c5_target_presence_check
      (Predictor.initial.set_populations exPopulation ["T1", "T9"])
      ["K1", "K2", "T1"] ["T1", "T9"] rfl rfl).1 "T9" (by decide)


/- ## Frequency-source fallback lemmas (C6) -/

theorem exc_bind_error {α β : Type} (e : Err) (f : α → Except Err β) :
    ((Except.error e : Except Err α) >>= f) = Except.error e := rfl

theorem exc_bind_ok {α β : Type} (a : α) (f : α → Except Err β) :
    (Except.ok a >>= f) = f a := rfl

theorem exc_ok_of_bind_ok {α β : Type} {e : Except Err α} {f : α → Except Err β}
    {b : β} (h : (e >>= f) = Except.ok b) :
    ∃ a, e = Except.ok a ∧ f a = Except.ok b := by
  cases e with
  | error err =>
    rw [exc_bind_error] at h
    exact Except.noConfusion h
  | ok a => exact ⟨a, rfl, h⟩

theorem get_frequencies_of_not_from_info (s : Predictor) (ff : List String)
    (gs : List ℚ) (h : s.from_info = false) :
    s.get_frequencies ff gs
      = Except.ok (computedFreqs s.population_labels gs, false) := by
  unfold Predictor.get_frequencies
  simp [h]

theorem exc_pure_eq_ok {α : Type} (a : α) :
    (pure a : Except Err α) = Except.ok a := rfl

theorem process_data_core_from_info_false (t1 : ℚ) (s : Predictor)
    (ff df : List String) (h : s.from_info = false) :
    ∀ s2, Predictor.process_data_core t1 s ff df = Except.ok s2 →
      s2.from_info = false := by
  intro s2 hok
  simp only [Predictor.process_data_core] at hok
  obtain ⟨fr, hgf, h1⟩ := exc_ok_of_bind_ok hok
  rw [get_frequencies_of_not_from_info s ff _ h] at hgf
  obtain rfl := (Except.ok.inj hgf).symm
  obtain ⟨filtered, _, h2⟩ := exc_ok_of_bind_ok h1
  cases hinds : s.individuals with
  | none =>
    simp only [hinds] at h2
    exact Except.noConfusion h2
  | some selfInds =>
    simp only [hinds] at h2
    obtain ⟨selfInds2, hself, h3⟩ := exc_ok_of_bind_ok h2
    obtain ⟨structures, _, h4⟩ := exc_ok_of_bind_ok h3
    cases hpol : s.polymorphisms with
    | none =>
      simp only [hpol, exc_pure_eq_ok] at h4
      obtain rfl := Except.ok.inj h4
      rfl
    | some polys =>
      simp only [hpol] at h4
      by_cases hcond : polys ≠ [] ∧ s.polymorphism_count = polys.length
      · rw [if_pos hcond, exc_pure_eq_ok] at h4
        obtain rfl := Except.ok.inj h4
        rfl
      · rw [if_neg hcond, exc_pure_eq_ok] at h4
        obtain rfl := Except.ok.inj h4
        rfl

theorem process_data_from_info_false (t1 : ℚ) (s : Predictor)
    (ff df : List String) (h : s.from_info = false) :
    ∀ s2, Predictor.process_data t1 s ff df = Except.ok s2 →
      s2.from_info = false := by
  intro s2 hok
  unfold Predictor.process_data at hok
  cases hpol : s.polymorphisms with
  | none =>
    rw [hpol] at hok
    exact process_data_core_from_info_false t1 s ff df h s2 hok
  | some polys =>
    rw [hpol] at hok
    obtain ⟨idval, _, h1⟩ := exc_ok_of_bind_ok hok
    by_cases hin : idval ∈ polys
    · rw [if_pos hin] at h1
      exact process_data_core_from_info_false t1
        { s with polymorphisms := some polys,
                 polymorphism_count := s.polymorphism_count + 1 } ff df h s2 h1
    · rw [if_neg hin, exc_pure_eq_ok] at h1
      obtain rfl := Except.ok.inj h1
      exact h

theorem process_rows_from_info_false :
    ∀ (rows : List (List String × List String)) (t1 : ℚ) (s s2 : Predictor),
      s.from_info = false → Predictor.process_rows t1 s rows = Except.ok s2 →
      s2.from_info = false := by
  intro rows
  induction rows with
  | nil =>
    intro t1 s s2 h hok
    unfold Predictor.process_rows at hok
    rw [List.foldlM_nil, exc_pure_eq_ok] at hok
    obtain rfl := Except.ok.inj hok
    exact h
  | cons row rest ih =>
    intro t1 s s2 h hok
    unfold Predictor.process_rows at hok
    rw [List.foldlM_cons] at hok
    obtain ⟨smid, hmid, hrest⟩ := exc_ok_of_bind_ok hok
    have hmidflag := process_data_from_info_false t1 s row.1 row.2 h smid hmid
    refine ih t1 smid s2 hmidflag ?_
    unfold Predictor.process_rows
    exact hrest

theorem get_frequencies_fallback (s : Predictor) (ff : List String) (gs : List ℚ)
    (info_field : String) (info : List (String × String))
    (result : List (String × ℚ))
    (h : s.from_info = true)
    (hia : listAt ff INFO_COLUMN = Except.ok info_field)
    (hpi : parseInfo info_field = Except.ok info)
    (hil : infoLoop SUPERPOPULATIONS info = Except.ok result)
    (hlen : result.length ≠ SUPERPOPULATIONS.length) :
    s.get_frequencies ff gs
      = Except.ok (computedFreqs s.population_labels gs, false) := by
  unfold Predictor.get_frequencies
  rw [h]
  rw [if_pos rfl, hia, exc_bind_ok, hpi, exc_bind_ok, hil, exc_bind_ok,
    if_neg hlen]

/-- C6: once the classifier is not using the info-field shortcut, every
frequency table comes from the computed branch — (i) with `from_info` false,
`get_frequencies` returns the computed frequencies and leaves the flag
false; (ii) on the first row where a per-population `_AF` sub-field is
missing, `get_frequencies` falls back to computed frequencies and clears the
flag; (iii) across any sequence of subsequent data rows, a cleared flag
never returns to true. -/
theorem c6_info_shortcut_never_returns :
    (∀ (s : Predictor) (ff : List String) (gs : List ℚ), s.from_info = false →
      s.get_frequencies ff gs
        = Except.ok (computedFreqs s.population_labels gs, false)) ∧
    (∀ (s : Predictor) (ff : List String) (gs : List ℚ) (info_field : String)
        (info : List (String × String)) (result : List (String × ℚ)),
      s.from_info = true →
      listAt ff INFO_COLUMN = Except.ok info_field →
      parseInfo info_field = Except.ok info →
      infoLoop SUPERPOPULATIONS info = Except.ok result →
      result.length ≠ SUPERPOPULATIONS.length →
      s.get_frequencies ff gs
        = Except.ok (computedFreqs s.population_labels gs, false)) ∧
    (∀ (rows : List (List String × List String)) (t1 : ℚ) (s s2 : Predictor),
      s.from_info = false →
      Predictor.process_rows t1 s rows = Except.ok s2 →
      s2.from_info = false) :=
  ⟨get_frequencies_of_not_from_info, get_frequencies_fallback,
   process_rows_from_info_false⟩

/-- C6 witness: the three parts at concrete inputs — an initial state (flag
off), a five-superpopulation configuration hitting a row whose INFO field
only carries `AFR_AF` (fallback fires), and an empty row sequence. -/
theorem c6_info_shortcut_never_returns_witness :
    (Predictor.initial.get_frequencies [] []
      = Except.ok (computedFreqs Predictor.initial.population_labels [], false)) ∧
    ((Predictor.initial.set_populations
        (((((Population.empty.add_individual "a" "AFR").add_individual
          "b" "AMR").add_individual "c" "EAS").add_individual
          "d" "EUR").add_individual "e" "SAS") ["T1"]).get_frequencies
        ["", "", "", "", "", "", "", "AFR_AF=0.5"] []
      = Except.ok (computedFreqs
          (Predictor.initial.set_populations
            (((((Population.empty.add_individual "a" "AFR").add_individual
              "b" "AMR").add_individual "c" "EAS").add_individual
              "d" "EUR").add_individual "e" "SAS") ["T1"]).population_labels [],
          false)) ∧
    Predictor.initial.from_info = false :=
  ⟨c6_info_shortcut_never_returns.1 Predictor.initial [] [] rfl,
   c6_info_shortcut_never_returns.2.1
     (Predictor.initial.set_populations
       (((((Population.empty.add_individual "a" "AFR").add_individual
         "b" "AMR").add_individual "c" "EAS").add_individual
         "d" "EUR").add_individual "e" "SAS") ["T1"])
     ["", "", "", "", "", "", "", "AFR_AF=0.5"] [] "AFR_AF=0.5"
     [("AFR_AF", "0.5")] [("AFR", 1/2)]
     (by with_unfolding_all decide) (by with_unfolding_all decide)
     (by with_unfolding_all decide) (by with_unfolding_all decide)
     (by with_unfolding_all decide),
   c6_info_shortcut_never_returns.2.2 [] 0 Predictor.initial Predictor.initial
     rfl rfl⟩
